import Mathlib

/-!
Shallow embedding of the sampling-and-validation pipeline of `src/main.py`
(a quantum random number generator demo application):

* the frequency-to-sequence expansion loop of `generate_random_numbers`
  (lines 47-53), together with a faithful model of Python's `int(s, 2)`;
* `calculate_statistics` (lines 59-73), with NumPy's behaviour on empty
  inputs (NaN-valued means, a raised error from the `min` reduction);
* `chi_square_test` (lines 76-93), with NumPy's `bincount`, the broadcast
  rule for elementwise operations, and NaN propagation.

Rationals model Python floats; `none : Option ℚ` models a NaN value;
`Except String` models a raised exception.  The square root used by
`np.std` and the chi-square CDF from `scipy.stats` are numerical library
routines whose internals are out of scope; they are taken as parameters.
-/

/-- Test for the characters `0` and `1`. -/
def isBinDigit (c : Char) : Bool :=
  c == '0' || c == '1'

/-- Numeric value of a binary digit character. -/
def digitVal (c : Char) : ℕ :=
  if c == '1' then 1 else 0

/-- Digit-run scanner of CPython's integer parser at base 2: after a first
digit, single underscores may separate further digits (`1_0` is accepted,
`1__0`, `1_` are rejected). -/
def binDigitsAux (acc : ℕ) : List Char → Option ℕ
  | [] => some acc
  | c :: rest =>
    if c == '_' then
      match rest with
      | c2 :: rest2 =>
        if isBinDigit c2 then binDigitsAux (2 * acc + digitVal c2) rest2 else none
      | [] => none
    else if isBinDigit c then binDigitsAux (2 * acc + digitVal c) rest
    else none

/-- A non-empty run of binary digits with single interior underscores. -/
def binDigits : List Char → Option ℕ
  | [] => none
  | c :: rest => if isBinDigit c then binDigitsAux (digitVal c) rest else none

/-- Strip leading and trailing whitespace, as CPython's `int` does before
parsing. -/
def stripChars (cs : List Char) : List Char :=
  ((cs.dropWhile Char.isWhitespace).reverse.dropWhile Char.isWhitespace).reverse

/-- Remove an optional `0b` / `0B` radix marker; one underscore may
directly follow the marker (`0b_101` parses, `0b__101` does not). -/
def dropRadixMarker (cs : List Char) : List Char :=
  match cs with
  | c0 :: c1 :: rest =>
    if c0 == '0' && (c1 == 'b' || c1 == 'B') then
      match rest with
      | '_' :: c2 :: rest2 => if isBinDigit c2 then c2 :: rest2 else '_' :: c2 :: rest2
      | r => r
    else cs
  | _ => cs

/-- Sign handling of CPython's integer parser: an optional single `+` or
`-` before the (optionally `0b`-marked) digit run. -/
def pyIntCore : List Char → Option ℤ
  | [] => none
  | c :: rest =>
    if c == '-' then (binDigits (dropRadixMarker rest)).map (fun v => -(v : ℤ))
    else if c == '+' then (binDigits (dropRadixMarker rest)).map (fun v => (v : ℤ))
    else (binDigits (dropRadixMarker (c :: rest))).map (fun v => (v : ℤ))

/-- Model of Python's `int(s, 2)` as used at `src/main.py:50`:
optional surrounding whitespace, optional sign, optional `0b`/`0B` marker,
then a non-empty run of binary digits with single interior underscores.
`none` models a raised `ValueError`. -/
def pyIntBase2 (s : String) : Option ℤ :=
  pyIntCore (stripChars s.toList)

/-- The frequency-to-sequence loop of `generate_random_numbers`
(`src/main.py:48-53`): for each `(binary_string, count)` pair in traversal
order, parse the key with `int(binary_string, 2)` and extend the output with
`count` copies of the decimal value.  Python's `[v] * count` yields the
empty list for `count ≤ 0`, modelled by `Int.toNat`; an unparseable key
raises `ValueError`, modelled by the `.error` branch. -/
def expandCounts : List (String × ℤ) → Except String (List ℤ)
  | [] => .ok []
  | (binary_string, count) :: rest =>
    match pyIntBase2 binary_string with
    | none => .error ("invalid literal for int() with base 2: " ++ binary_string)
    | some decimal_value =>
      (expandCounts rest).map (fun l => List.replicate count.toNat decimal_value ++ l)

/-- Decimal value of a binary digit string (spec side, most significant
digit first). -/
def binValue (cs : List Char) : ℕ :=
  cs.foldl (fun a c => 2 * a + digitVal c) 0

/-- A bit-pattern in the sense of the data model: exactly `n` binary
digits. -/
def isBinaryPattern (n : ℕ) (s : String) : Bool :=
  s.toList.length == n && s.toList.all isBinDigit

/-- Spec-side expansion: each `(pattern, count)` pair contributes `count`
copies of the pattern's decimal value, in traversal order. -/
def expandSpec : List (String × ℤ) → List ℤ
  | [] => []
  | kc :: rest => List.replicate kc.2.toNat ((binValue kc.1.toList : ℕ) : ℤ) ++ expandSpec rest

instance {ε α : Type} [DecidableEq ε] [DecidableEq α] : DecidableEq (Except ε α) := fun a b =>
  match a, b with
  | .ok x, .ok y => if h : x = y then .isTrue (by rw [h]) else .isFalse (by simp [h])
  | .error x, .error y => if h : x = y then .isTrue (by rw [h]) else .isFalse (by simp [h])
  | .ok _, .error _ => .isFalse (by simp)
  | .error _, .ok _ => .isFalse (by simp)

/-- The record returned by `calculate_statistics` (`src/main.py:63-71`).
`mean` and `std_dev` are `Option ℚ` because NumPy yields NaN on empty
input for those reductions. -/
structure StatsDict where
  mean : Option ℚ
  theoretical_mean : ℚ
  std_dev : Option ℚ
  min : ℕ
  max : ℕ
  unique_values : ℕ
  total_samples : ℕ
deriving DecidableEq, Repr

/-- Model of `np.mean`: arithmetic mean; NaN (here `none`) on an empty array. -/
def np_mean (data : List ℕ) : Option ℚ :=
  match data with
  | [] => none
  | _ => some ((data.map (fun x : ℕ => (x : ℚ))).sum / data.length)

/-- Model of `np.std`: square root of the mean squared deviation from the mean
(population convention, divisor `N`); NaN on an empty array.  `sqrt` is
the numerical square-root routine, taken as a parameter. -/
def np_std (sqrt : ℚ → ℚ) (data : List ℕ) : Option ℚ :=
  match np_mean data with
  | none => none
  | some m => some (sqrt ((data.map (fun x : ℕ => ((x : ℚ) - m) ^ 2)).sum / data.length))

/-- Model of `np.min`: raises on a zero-size array. -/
def np_min (data : List ℕ) : Except String ℕ :=
  match data with
  | [] => .error ("zero-size array to reduction operation minimum which has no identity")
  | x :: xs => .ok (xs.foldl min x)

/-- Model of `np.max`: raises on a zero-size array. -/
def np_max (data : List ℕ) : Except String ℕ :=
  match data with
  | [] => .error ("zero-size array to reduction operation maximum which has no identity")
  | x :: xs => .ok (xs.foldl max x)

/-- Model of `calculate_statistics` (`src/main.py:59-73`): builds the statistics
record; on an empty input the `np.min` reduction raises, which aborts the
construction of the record. -/
def calculate_statistics (sqrt : ℚ → ℚ) (data : List ℕ) (num_qubits : ℕ) :
    Except String StatsDict :=
  match np_min data, np_max data with
  | .error e, _ => .error e
  | _, .error e => .error e
  | .ok mn, .ok mx =>
    .ok { mean := np_mean data
          theoretical_mean := ((2 : ℚ) ^ num_qubits - 1) / 2
          std_dev := np_std sqrt data
          min := mn
          max := mx
          unique_values := data.dedup.length
          total_samples := data.length }

/-- The seven value expressions of the dict literal at `src/main.py:63-71`,
in Python's left-to-right evaluation order, each either yielding a value
(possibly NaN) or raising. -/
def field_evals (sqrt : ℚ → ℚ) (data : List ℕ) (num_qubits : ℕ) :
    List (String × Except String (Option ℚ)) :=
  [("mean", .ok (np_mean data)),
   ("theoretical_mean", .ok (some (((2 : ℚ) ^ num_qubits - 1) / 2))),
   ("std_dev", .ok (np_std sqrt data)),
   ("min", (np_min data).map (fun v => some ((v : ℚ)))),
   ("max", (np_max data).map (fun v => some ((v : ℚ)))),
   ("unique_values", .ok (some ((data.dedup.length : ℚ)))),
   ("total_samples", .ok (some ((data.length : ℚ))))]

/-- Names of the computations that complete before the first one that
raises, under left-to-right evaluation. -/
def invoked_before_failure : List (String × Except String (Option ℚ)) → List String
  | [] => []
  | (name, .ok _) :: rest => name :: invoked_before_failure rest
  | (_, .error _) :: _ => []

/-- Population variance written as the difference of the second moment and
the squared mean (spec side, divisor `N`). -/
def popVariance (data : List ℕ) : ℚ :=
  (data.map (fun x : ℕ => (x : ℚ) ^ 2)).sum / data.length -
    ((data.map (fun x : ℕ => (x : ℚ))).sum / data.length) ^ 2

/-- Sample variance (divisor `N - 1`), for contrast with `popVariance`. -/
def sampleVariance (data : List ℕ) : ℚ :=
  match np_mean data with
  | none => 0
  | some m => (data.map (fun x : ℕ => ((x : ℚ) - m) ^ 2)).sum / ((data.length : ℚ) - 1)

/-- Model of `np.bincount(data, minlength)`: counts of each value `0, 1, ...` up to
`max(minlength, max(data) + 1)` (just `minlength` for empty input). -/
def np_bincount (data : List ℕ) (minlength : ℕ) : List ℕ :=
  let len := max minlength (match data with | [] => 0 | _ => data.foldr max 0 + 1)
  (List.range len).map (fun i => data.count i)

/-- IEEE-style NaN-propagating addition on `Option ℚ` (`none` is NaN), as
performed by `np.sum` over an array containing NaN entries. -/
def nan_add : Option ℚ → Option ℚ → Option ℚ
  | some a, some b => some (a + b)
  | _, _ => none

/-- Model of `chi_square_test` (`src/main.py:76-93`).  `cdf` is `scipy.stats.chi2.cdf`,
taken as a parameter.  The subtraction `observed_freq - expected_freq_array`
requires equal array lengths (NumPy broadcast rule), modelled by the
`.error` branch; each per-bin term `(O - E)² / E` is NaN (`none`) when
`E = 0`, which happens exactly on empty input, where every `O` is `0` and
the term is the indeterminate `0 / 0`. -/
def chi_square_test (cdf : ℚ → ℕ → ℚ) (data : List ℕ) (num_qubits : ℕ) :
    Except String (Option ℚ × Option ℚ) :=
  let max_value : ℕ := 2 ^ num_qubits
  let expected_freq : ℚ := (data.length : ℚ) / (max_value : ℚ)
  let observed_freq := np_bincount data max_value
  if observed_freq.length = max_value then
    let terms := observed_freq.map (fun o : ℕ =>
      if expected_freq = 0 then (none : Option ℚ)
      else some (((o : ℚ) - expected_freq) ^ 2 / expected_freq))
    let chi_square_stat := terms.foldl nan_add (some 0)
    let degrees_of_freedom := max_value - 1
    .ok (chi_square_stat, chi_square_stat.map (fun s => 1 - cdf s degrees_of_freedom))
  else
    .error ("operands could not be broadcast together")

/-- Spec-side chi-square statistic: `Σ_{i=0}^{K-1} (O_i - E)² / E` with
`K = 2^n`, `E = N / K`, `O_i` the number of occurrences of `i`. -/
def chiSquareStatSpec (data : List ℕ) (n : ℕ) : ℚ :=
  let K : ℕ := 2 ^ n
  let E : ℚ := (data.length : ℚ) / (K : ℚ)
  ∑ i ∈ Finset.range K, (((data.count i : ℕ) : ℚ) - E) ^ 2 / E


/-! ### Parser lemmas -/

theorem binDigit_not_underscore {c : Char} (h : isBinDigit c = true) :
    (c == '_') = false := by
  cases hb : (c == '_') with
  | false => rfl
  | true =>
    have hc : c = '_' := beq_iff_eq.mp hb
    subst hc
    simp [isBinDigit] at h

theorem binDigit_eq {c : Char} (h : isBinDigit c = true) : c = '0' ∨ c = '1' := by
  simpa [isBinDigit] using h

theorem binDigit_not_whitespace {c : Char} (h : isBinDigit c = true) :
    c.isWhitespace = false := by
  rcases binDigit_eq h with rfl | rfl <;> decide

theorem binDigit_ne {c : Char} (d : Char) (h : isBinDigit c = true)
    (hd : isBinDigit d = false) : (c == d) = false := by
  cases hb : (c == d) with
  | false => rfl
  | true =>
    have hc : c = d := beq_iff_eq.mp hb
    subst hc
    rw [h] at hd
    exact absurd hd (by simp)

theorem binDigitsAux_digits :
    ∀ (cs : List Char) (acc : ℕ), (∀ c ∈ cs, isBinDigit c = true) →
      binDigitsAux acc cs = some (cs.foldl (fun a c => 2 * a + digitVal c) acc) := by
  intro cs
  induction cs with
  | nil => intro acc _; rfl
  | cons c rest ih =>
    intro acc h
    have hc : isBinDigit c = true := h c (List.mem_cons_self _ _)
    have hrest : ∀ c ∈ rest, isBinDigit c = true :=
      fun x hx => h x (List.mem_cons_of_mem _ hx)
    rw [binDigitsAux.eq_def]
    simp only [binDigit_not_underscore hc, hc, List.foldl_cons,
      Bool.false_eq_true, if_true, if_false]
    exact ih (2 * acc + digitVal c) hrest

theorem binDigits_digits (cs : List Char) (hne : cs ≠ [])
    (h : ∀ c ∈ cs, isBinDigit c = true) : binDigits cs = some (binValue cs) := by
  match cs, hne with
  | c :: rest, _ =>
    have hc : isBinDigit c = true := h c (List.mem_cons_self _ _)
    have hrest : ∀ x ∈ rest, isBinDigit x = true :=
      fun x hx => h x (List.mem_cons_of_mem _ hx)
    simp only [binDigits, hc, if_true]
    rw [binDigitsAux_digits rest (digitVal c) hrest]
    simp [binValue]

theorem dropWhile_eq_self_of_not {p : Char → Bool} :
    ∀ cs : List Char, (∀ c ∈ cs, p c = false) → cs.dropWhile p = cs := by
  intro cs h
  cases cs with
  | nil => rfl
  | cons c rest => simp [List.dropWhile_cons, h c (List.mem_cons_self _ _)]

theorem stripChars_digits (cs : List Char) (h : ∀ c ∈ cs, isBinDigit c = true) :
    stripChars cs = cs := by
  unfold stripChars
  rw [dropWhile_eq_self_of_not cs (fun c hc => binDigit_not_whitespace (h c hc))]
  rw [dropWhile_eq_self_of_not cs.reverse
    (fun c hc => binDigit_not_whitespace (h c (List.mem_reverse.mp hc)))]
  exact List.reverse_reverse cs

theorem dropRadixMarker_digits (cs : List Char) (h : ∀ c ∈ cs, isBinDigit c = true) :
    dropRadixMarker cs = cs := by
  match cs with
  | [] => rfl
  | [c] => rfl
  | c0 :: c1 :: rest =>
    have h1 : isBinDigit c1 = true := h c1 (List.mem_cons_of_mem _ (List.mem_cons_self _ _))
    have hb : (c1 == 'b') = false := binDigit_ne 'b' h1 (by decide)
    have hB : (c1 == 'B') = false := binDigit_ne 'B' h1 (by decide)
    simp [dropRadixMarker, hb, hB]

theorem pyIntCore_digits (cs : List Char) (hne : cs ≠ [])
    (h : ∀ c ∈ cs, isBinDigit c = true) :
    pyIntCore cs = some ((binValue cs : ℕ) : ℤ) := by
  match cs, hne with
  | c :: rest, _ =>
    have hc : isBinDigit c = true := h c (List.mem_cons_self _ _)
    have hminus : (c == '-') = false := binDigit_ne '-' hc (by decide)
    have hplus : (c == '+') = false := binDigit_ne '+' hc (by decide)
    simp only [pyIntCore, hminus, hplus, Bool.false_eq_true, if_false]
    rw [dropRadixMarker_digits _ h, binDigits_digits _ (by simp) h]
    rfl

theorem isBinaryPattern_spec (n : ℕ) (s : String) (hp : isBinaryPattern n s = true) :
    s.toList.length = n ∧ ∀ c ∈ s.toList, isBinDigit c = true := by
  have h' := hp
  unfold isBinaryPattern at h'
  obtain ⟨h1, h2⟩ := (Bool.and_eq_true _ _).mp h'
  exact ⟨beq_iff_eq.mp h1, fun c hc => List.all_eq_true.mp h2 c hc⟩

theorem pyIntBase2_pattern (n : ℕ) (s : String) (hn : 1 ≤ n)
    (hp : isBinaryPattern n s = true) :
    pyIntBase2 s = some ((binValue s.toList : ℕ) : ℤ) := by
  obtain ⟨hlen, hall⟩ := isBinaryPattern_spec n s hp
  have hne : s.toList ≠ [] := by
    intro h0
    rw [h0] at hlen
    simp at hlen
    omega
  rw [pyIntBase2, stripChars_digits _ hall]
  exact pyIntCore_digits _ hne hall

/-! ### Expansion lemmas -/

theorem digitVal_le_one (c : Char) : digitVal c ≤ 1 := by
  unfold digitVal
  split <;> omega

theorem binValue_aux_lt :
    ∀ (cs : List Char) (acc : ℕ),
      cs.foldl (fun a c => 2 * a + digitVal c) acc < (acc + 1) * 2 ^ cs.length := by
  intro cs
  induction cs with
  | nil => intro acc; simp
  | cons c rest ih =>
    intro acc
    have h1 := ih (2 * acc + digitVal c)
    have hd := digitVal_le_one c
    have h2 : (2 * acc + digitVal c + 1) * 2 ^ rest.length ≤ (acc + 1) * 2 ^ (rest.length + 1) := by
      have h3 : 2 * acc + digitVal c + 1 ≤ 2 * (acc + 1) := by omega
      calc (2 * acc + digitVal c + 1) * 2 ^ rest.length
          ≤ (2 * (acc + 1)) * 2 ^ rest.length := Nat.mul_le_mul_right _ h3
        _ = (acc + 1) * 2 ^ (rest.length + 1) := by ring
    simpa [List.length_cons] using lt_of_lt_of_le h1 h2

theorem binValue_lt (cs : List Char) : binValue cs < 2 ^ cs.length := by
  simpa [binValue] using binValue_aux_lt cs 0

theorem expandCounts_patterns (n : ℕ) (hn : 1 ≤ n) :
    ∀ counts : List (String × ℤ), (∀ kc ∈ counts, isBinaryPattern n kc.1 = true) →
      expandCounts counts = .ok (expandSpec counts) := by
  intro counts
  induction counts with
  | nil => intro _; rfl
  | cons kc rest ih =>
    intro h
    obtain ⟨k, c⟩ := kc
    have hk : isBinaryPattern n k = true := h (k, c) (List.mem_cons_self _ _)
    have hstep : expandCounts ((k, c) :: rest) =
        (match pyIntBase2 k with
          | none => .error ("invalid literal for int() with base 2: " ++ k)
          | some decimal_value =>
            (expandCounts rest).map (fun l => List.replicate c.toNat decimal_value ++ l)) := rfl
    rw [hstep, pyIntBase2_pattern n k hn hk,
      ih (fun kc hkc => h kc (List.mem_cons_of_mem _ hkc))]
    rfl

theorem expandSpec_length (counts : List (String × ℤ))
    (hc : ∀ kc ∈ counts, 0 ≤ kc.2) :
    ((expandSpec counts).length : ℤ) = (counts.map (fun kc => kc.2)).sum := by
  induction counts with
  | nil => rfl
  | cons kc rest ih =>
    have h0 : (0 : ℤ) ≤ kc.2 := hc kc (List.mem_cons_self _ _)
    have ih' := ih (fun x hx => hc x (List.mem_cons_of_mem _ hx))
    simp only [expandSpec, List.length_append, List.length_replicate, List.map_cons,
      List.sum_cons]
    push_cast
    rw [Int.toNat_of_nonneg h0, ih']

theorem expandSpec_mem (counts : List (String × ℤ)) (v : ℤ) (hv : v ∈ expandSpec counts) :
    ∃ kc ∈ counts, v = ((binValue kc.1.toList : ℕ) : ℤ) := by
  induction counts with
  | nil => simp [expandSpec] at hv
  | cons kc rest ih =>
    simp only [expandSpec, List.mem_append] at hv
    rcases hv with h | h
    · exact ⟨kc, List.mem_cons_self _ _, List.eq_of_mem_replicate h⟩
    · obtain ⟨kc', hm, he⟩ := ih h
      exact ⟨kc', List.mem_cons_of_mem _ hm, he⟩

/-! ### Claims about the expansion loop -/

/-- C4 counterexample: with bit-width `n = 2`, the key `"111"` is not a
binary pattern of length 2, yet the loop succeeds and emits `7`; a negative
count raises nothing and simply contributes no elements. -/
theorem c4_counterexample :
    expandCounts [("111", 1)] = .ok [7] ∧ expandCounts [("01", -2)] = .ok [] := by
  constructor <;> decide

/-- C4 (amended): the expansion loop performs no validation of key length
or count sign: any key accepted by `int(key, 2)` succeeds regardless of its
length, and the pair contributes `max(count, 0)` copies of its value. -/
theorem c4_amended_no_validation (key : String) (count : ℤ) (v : ℤ)
    (h : pyIntBase2 key = some v) :
    expandCounts [(key, count)] = .ok (List.replicate count.toNat v) := by
  have hstep : expandCounts [(key, count)] =
      (match pyIntBase2 key with
        | none => .error ("invalid literal for int() with base 2: " ++ key)
        | some decimal_value =>
          (expandCounts []).map (fun l => List.replicate count.toNat decimal_value ++ l)) := rfl
  rw [hstep, h]
  simp [expandCounts, Except.map]

theorem c4_amended_no_validation_witness :
    pyIntBase2 ("111") = some 7 ∧ expandCounts [("111", -1)] = .ok (List.replicate (-1 : ℤ).toNat 7) :=
  ⟨by decide, c4_amended_no_validation ("111") (-1) 7 (by decide)⟩

/-- C5: for a frequency map whose keys are `n`-digit binary patterns and
whose counts are non-negative, the loop succeeds, appends `count` copies of
each pattern's decimal value in traversal order, and the output length
equals the sum of the counts. -/
theorem c5_length_invariant (n : ℕ) (counts : List (String × ℤ)) (hn : 1 ≤ n)
    (hk : ∀ kc ∈ counts, isBinaryPattern n kc.1 = true)
    (hc : ∀ kc ∈ counts, 0 ≤ kc.2) :
    expandCounts counts = .ok (expandSpec counts) ∧
      ((expandSpec counts).length : ℤ) = (counts.map (fun kc => kc.2)).sum :=
  ⟨expandCounts_patterns n hn counts hk, expandSpec_length counts hc⟩

theorem c5_length_invariant_witness :
    expandCounts [("10", 2), ("01", 1)] = .ok (expandSpec [("10", 2), ("01", 1)]) ∧
      ((expandSpec [("10", 2), ("01", 1)]).length : ℤ) =
        ([("10", (2 : ℤ)), ("01", 1)].map (fun kc => kc.2)).sum :=
  c5_length_invariant 2 [("10", 2), ("01", 1)] (by decide) (by decide) (by decide)

/-- C6: if every key is an `n`-digit binary pattern, every value the loop
emits lies in `[0, 2^n - 1]`. -/
theorem c6_range_invariant (n : ℕ) (counts : List (String × ℤ)) (hn : 1 ≤ n)
    (hk : ∀ kc ∈ counts, isBinaryPattern n kc.1 = true) :
    ∀ l, expandCounts counts = .ok l → ∀ v ∈ l, 0 ≤ v ∧ v ≤ 2 ^ n - 1 := by
  intro l hl v hv
  rw [expandCounts_patterns n hn counts hk] at hl
  have hle : l = expandSpec counts := by
    cases hl
    rfl
  subst hle
  obtain ⟨kc, hm, hveq⟩ := expandSpec_mem counts v hv
  subst hveq
  refine ⟨Int.ofNat_nonneg _, ?_⟩
  obtain ⟨hlen, _⟩ := isBinaryPattern_spec n kc.1 (hk kc hm)
  have hlt : binValue kc.1.toList < 2 ^ n := by
    rw [← hlen]
    exact binValue_lt _
  have hcast : ((binValue kc.1.toList : ℕ) : ℤ) < (2 : ℤ) ^ n := by
    exact_mod_cast hlt
  linarith

theorem c6_range_invariant_witness :
    0 ≤ (1 : ℤ) ∧ (1 : ℤ) ≤ 2 ^ 1 - 1 :=
  c6_range_invariant 1 [("1", 2)] (by decide) (by decide) [1, 1] (by decide) 1 (by decide)

/-- C10: the expansion loop validates neither key length nor count sign:
it fails exactly when some key is rejected by `int(key, 2)`, and on success
the output length is the sum over all pairs of `max(count, 0)`. -/
theorem c10_loop_behavior (counts : List (String × ℤ)) :
    ((expandCounts counts).isOk = counts.all (fun kc => (pyIntBase2 kc.1).isSome)) ∧
      (∀ l, expandCounts counts = .ok l →
        l.length = (counts.map (fun kc => kc.2.toNat)).sum) := by
  induction counts with
  | nil =>
    refine ⟨rfl, ?_⟩
    intro l hl
    simp [expandCounts] at hl
    subst hl
    rfl
  | cons kc rest ih =>
    obtain ⟨k, c⟩ := kc
    cases hp : pyIntBase2 k with
    | none =>
      constructor
      · simp [expandCounts, hp, Except.isOk, Except.toBool, List.all_cons]
      · intro l hl
        simp [expandCounts, hp] at hl
    | some v =>
      cases he : expandCounts rest with
      | error e =>
        have h1 := ih.1
        rw [he] at h1
        constructor
        · simp [expandCounts, hp, he, List.all_cons, Except.isOk, Except.toBool, Except.map, ← h1]
        · intro l hl
          simp [expandCounts, hp, he, Except.map] at hl
      | ok l' =>
        have h1 := ih.1
        rw [he] at h1
        constructor
        · simp [expandCounts, hp, he, List.all_cons, Except.isOk, Except.toBool, Except.map, ← h1]
        · intro l hl
          simp only [expandCounts, hp, he, Except.map_ok] at hl
          have hll : List.replicate c.toNat v ++ l' = l := by
            cases hl
            rfl
          subst hll
          have h2 := ih.2 l' he
          simp [List.length_append, h2]

theorem c10_loop_behavior_witness :
    ((expandCounts [("10", 3), ("1", -2)]).isOk =
      [("10", (3 : ℤ)), ("1", -2)].all (fun kc => (pyIntBase2 kc.1).isSome)) ∧
      ([2, 2, 2] : List ℤ).length =
        ([("10", (3 : ℤ)), ("1", -2)].map (fun kc => kc.2.toNat)).sum :=
  ⟨(c10_loop_behavior _).1, (c10_loop_behavior _).2 [2, 2, 2] (by decide)⟩

/-! ### Statistics lemmas -/

theorem sum_sq_dev (m : ℚ) :
    ∀ data : List ℕ,
      (data.map (fun x : ℕ => ((x : ℚ) - m) ^ 2)).sum =
        (data.map (fun x : ℕ => (x : ℚ) ^ 2)).sum
          - 2 * m * (data.map (fun x : ℕ => (x : ℚ))).sum + data.length * m ^ 2 := by
  intro data
  induction data with
  | nil => simp
  | cons x rest ih =>
    simp only [List.map_cons, List.sum_cons, List.length_cons]
    push_cast
    rw [ih]
    ring

theorem np_mean_cons (x : ℕ) (xs : List ℕ) :
    np_mean (x :: xs) =
      some (((x :: xs).map (fun y : ℕ => (y : ℚ))).sum / (x :: xs).length) := rfl

theorem length_cast_ne_zero (x : ℕ) (xs : List ℕ) : (((x :: xs).length : ℕ) : ℚ) ≠ 0 := by
  have : (x :: xs).length = xs.length + 1 := rfl
  rw [this]
  push_cast
  positivity

theorem np_std_eq_pop (sqrt : ℚ → ℚ) (data : List ℕ) (hne : data ≠ []) :
    np_std sqrt data = some (sqrt (popVariance data)) := by
  match data, hne with
  | x :: xs, _ =>
    have hN : (((x :: xs).length : ℕ) : ℚ) ≠ 0 := length_cast_ne_zero x xs
    unfold np_std
    rw [np_mean_cons]
    have harg :
        ((x :: xs).map (fun y : ℕ => ((y : ℚ) -
            ((x :: xs).map (fun z : ℕ => (z : ℚ))).sum / (x :: xs).length) ^ 2)).sum
            / ((x :: xs).length : ℚ) = popVariance (x :: xs) := by
      rw [sum_sq_dev]
      unfold popVariance
      field_simp
      ring
    exact congrArg (fun t => some (sqrt t)) harg

/-! ### Claims about `calculate_statistics` -/

/-- C3 counterexample: on the empty sequence `calculate_statistics` does
fail, but the `mean` computation is invoked (and completes, as NaN) before
the failure, and the error is the `min` reduction's zero-size-array error,
not an up-front emptiness check. -/
theorem c3_counterexample :
    "mean" ∈ invoked_before_failure (field_evals (fun q => q) [] 2) ∧
      calculate_statistics (fun q => q) [] 2 =
        .error ("zero-size array to reduction operation minimum which has no identity") :=
  ⟨by decide, rfl⟩

/-- C3 (amended): `calculate_statistics` on an empty sequence fails via the
zero-size-array error raised by the `min` reduction; the mean,
theoretical-mean and standard-deviation computations are all invoked
first (the descriptive ones yielding NaN), so there is no up-front
emptiness check. -/
theorem c3_amended_failure_is_late (sqrt : ℚ → ℚ) (num_qubits : ℕ) :
    calculate_statistics sqrt [] num_qubits =
        .error ("zero-size array to reduction operation minimum which has no identity") ∧
      invoked_before_failure (field_evals sqrt [] num_qubits) =
        ["mean", "theoretical_mean", "std_dev"] :=
  ⟨rfl, rfl⟩

/-- C7: on any non-empty sequence the `std_dev` field is the square root of
the population variance (divisor `N`), the `theoretical_mean` field is
`(2^n - 1) / 2` independently of the data, and the population variance
genuinely differs from the sample variance (divisor `N - 1`). -/
theorem c7_population_std (sqrt : ℚ → ℚ) (num_qubits : ℕ) (data : List ℕ)
    (hne : data ≠ []) :
    (∃ st, calculate_statistics sqrt data num_qubits = .ok st ∧
        st.std_dev = some (sqrt (popVariance data)) ∧
        st.theoretical_mean = ((2 : ℚ) ^ num_qubits - 1) / 2) ∧
      popVariance [0, 1] ≠ sampleVariance [0, 1] := by
  constructor
  · match data, hne with
    | x :: xs, _ =>
      refine ⟨_, rfl, ?_, rfl⟩
      exact np_std_eq_pop sqrt (x :: xs) (by simp)
  · norm_num [popVariance, sampleVariance, np_mean]

theorem c7_population_std_witness :
    (∃ st, calculate_statistics (fun q => q) [0, 1] 2 = .ok st ∧
        st.std_dev = some ((fun q => q) (popVariance [0, 1])) ∧
        st.theoretical_mean = ((2 : ℚ) ^ 2 - 1) / 2) ∧
      popVariance [0, 1] ≠ sampleVariance [0, 1] :=
  c7_population_std (fun q => q) 2 [0, 1] (by decide)

/-! ### Chi-square lemmas -/

theorem list_range_map_sum (f : ℕ → ℚ) (n : ℕ) :
    ((List.range n).map f).sum = ∑ i ∈ Finset.range n, f i := by
  induction n with
  | zero => simp
  | succ k ih =>
    rw [List.range_succ, Finset.sum_range_succ]
    simp [ih]

theorem foldr_max_lt (data : List ℕ) (K : ℕ) (hK : 0 < K)
    (h : ∀ x ∈ data, x < K) : data.foldr max 0 < K := by
  induction data with
  | nil => simpa using hK
  | cons x rest ih =>
    simp only [List.foldr_cons]
    exact Nat.max_lt.mpr
      ⟨h x (List.mem_cons_self _ _), ih (fun y hy => h y (List.mem_cons_of_mem _ hy))⟩

theorem np_bincount_of_lt (data : List ℕ) (K : ℕ) (hK : 0 < K)
    (h : ∀ x ∈ data, x < K) :
    np_bincount data K = (List.range K).map (fun i => data.count i) := by
  unfold np_bincount
  cases data with
  | nil => simp
  | cons x xs =>
    have hlt : (x :: xs).foldr max 0 < K := foldr_max_lt (x :: xs) K hK h
    have : max K ((x :: xs).foldr max 0 + 1) = K := Nat.max_eq_left (by omega)
    simp only [this]

theorem foldl_nan_add_some (l : List ℚ) :
    ∀ a : ℚ, (l.map some).foldl nan_add (some a) = some (a + l.sum) := by
  induction l with
  | nil => intro a; simp
  | cons x rest ih =>
    intro a
    simp only [List.map_cons, List.foldl_cons, nan_add, List.sum_cons]
    rw [ih (a + x)]
    congr 1
    ring

theorem foldl_nan_add_none : ∀ l : List (Option ℚ), l.foldl nan_add none = none := by
  intro l
  induction l with
  | nil => rfl
  | cons t rest ih =>
    simp only [List.foldl_cons]
    rw [show nan_add none t = none by cases t <;> rfl]
    exact ih

theorem foldl_nan_add_const_none (l : List ℕ) (hl : l ≠ []) :
    (l.map (fun _ => (none : Option ℚ))).foldl nan_add (some 0) = none := by
  match l, hl with
  | x :: xs, _ =>
    simp only [List.map_cons, List.foldl_cons]
    rw [show nan_add (some 0) none = none from rfl]
    exact foldl_nan_add_none _

theorem chi_square_test_eq_spec (cdf : ℚ → ℕ → ℚ) (data : List ℕ) (n : ℕ)
    (hne : data ≠ []) (h : ∀ x ∈ data, x < 2 ^ n) :
    chi_square_test cdf data n =
      .ok (some (chiSquareStatSpec data n),
        some (1 - cdf (chiSquareStatSpec data n) (2 ^ n - 1))) := by
  have hK : 0 < 2 ^ n := Nat.two_pow_pos n
  have hlen : data.length ≠ 0 := fun h0 => hne (List.eq_nil_of_length_eq_zero h0)
  have hE : ((data.length : ℚ) / ((2 ^ n : ℕ) : ℚ)) ≠ 0 :=
    div_ne_zero (Nat.cast_ne_zero.mpr hlen) (Nat.cast_ne_zero.mpr hK.ne')
  have hbc := np_bincount_of_lt data (2 ^ n) hK h
  simp only [chi_square_test, hbc, List.length_map, List.length_range,
    eq_self_iff_true, if_true, if_neg hE, List.map_map]
  rw [show ((fun o : ℕ => some (((o : ℚ) - (data.length : ℚ) / ((2 ^ n : ℕ) : ℚ)) ^ 2 /
        ((data.length : ℚ) / ((2 ^ n : ℕ) : ℚ)))) ∘ (fun i => List.count i data)) =
      (Option.some ∘ (fun i : ℕ => ((List.count i data : ℚ) -
          (data.length : ℚ) / ((2 ^ n : ℕ) : ℚ)) ^ 2 /
        ((data.length : ℚ) / ((2 ^ n : ℕ) : ℚ)))) from rfl]
  rw [← List.map_map, foldl_nan_add_some, zero_add, list_range_map_sum]
  rfl

/-! ### Claims about `chi_square_test` -/

/-- C1: for `n ≥ 1` and a non-empty sequence of values in `[0, 2^n - 1]`,
`chi_square_test` returns the statistic `Σ_{i<K} (O_i - E)² / E` over all
`K = 2^n` bins (zero-count bins included, `E = N / K`) and the p-value
`1 - cdf(χ², K - 1)`. -/
theorem c1_chi_square_formula (cdf : ℚ → ℕ → ℚ) (data : List ℕ) (n : ℕ)
    (hn : 1 ≤ n) (hne : data ≠ []) (hb : ∀ x ∈ data, x ≤ 2 ^ n - 1) :
    chi_square_test cdf data n =
      .ok (some (chiSquareStatSpec data n),
        some (1 - cdf (chiSquareStatSpec data n) (2 ^ n - 1))) := by
  apply chi_square_test_eq_spec cdf data n hne
  intro x hx
  have hx' := hb x hx
  have hK : 0 < 2 ^ n := Nat.two_pow_pos n
  omega

theorem c1_chi_square_formula_witness :
    chi_square_test (fun _ _ => 0) [0, 1] 1 =
      .ok (some (chiSquareStatSpec [0, 1] 1), some 1) := by
  have h := c1_chi_square_formula (fun _ _ => 0) [0, 1] 1 (by decide) (by decide) (by decide)
  simpa using h

/-- C2 counterexample: `chi_square_test` does not fail on the empty
sequence — it returns NaN for both the statistic and the p-value — so there
is no `DegenerateTest` failure. -/
theorem c2_counterexample :
    chi_square_test (fun _ _ => 0) [] 2 = .ok (none, none) := by
  norm_num [chi_square_test, np_bincount, nan_add, List.range_succ]

/-- C2 (amended): `chi_square_test` performs no validation: on an empty
sequence every per-bin term is the indeterminate `0/0` and the function
returns `(NaN, NaN)` instead of failing, and a bit-width below 1 is
accepted (`n = 0` computes a one-bin test with zero degrees of freedom). -/
theorem c2_amended_no_failure (cdf : ℚ → ℕ → ℚ) (n : ℕ) :
    chi_square_test cdf [] n = .ok (none, none) ∧
      chi_square_test cdf [0] 0 = .ok (some 0, some (1 - cdf 0 0)) := by
  constructor
  · have hK : 0 < 2 ^ n := Nat.two_pow_pos n
    have hne : List.range (2 ^ n) ≠ [] := by
      simp only [ne_eq, List.range_eq_nil]
      exact hK.ne'
    have hfold := foldl_nan_add_const_none (List.range (2 ^ n)) hne
    simp only [chi_square_test, np_bincount, List.length_nil, Nat.cast_zero, zero_div,
      List.length_map, List.length_range, Nat.max_eq_left (Nat.zero_le _),
      eq_self_iff_true, if_true, if_pos rfl, List.map_map]
    have hF : List.foldl nan_add (some 0)
        (List.map ((fun o : ℕ => (none : Option ℚ)) ∘ fun i => List.count i ([] : List ℕ))
          (List.range (2 ^ n))) = none := hfold
    rw [hF]
    rfl
  · have h := chi_square_test_eq_spec cdf [0] 0 (by decide) (by decide)
    rw [h]
    have hstat : chiSquareStatSpec [0] 0 = 0 := by
      norm_num [chiSquareStatSpec, Finset.sum_range_succ]
    rw [hstat]
    rfl

/-! ### Counting lemmas for the exact-uniformity claim -/

theorem count_sum_le (data : List ℕ) :
    ∀ K : ℕ, (∑ i ∈ Finset.range K, data.count i) ≤ data.length := by
  induction data with
  | nil => intro K; simp
  | cons a rest ih =>
    intro K
    have hsplit : (∑ i ∈ Finset.range K, (a :: rest).count i) =
        (∑ i ∈ Finset.range K, rest.count i) + (if a ∈ Finset.range K then 1 else 0) := by
      simp only [List.count_cons, beq_iff_eq]
      rw [Finset.sum_add_distrib]
      simp
    rw [hsplit]
    have h2 := ih K
    simp only [List.length_cons]
    split <;> omega

theorem all_lt_of_count_sum (data : List ℕ) :
    ∀ K : ℕ, (∑ i ∈ Finset.range K, data.count i) = data.length → ∀ x ∈ data, x < K := by
  induction data with
  | nil => intro K _ x hx; simp at hx
  | cons a rest ih =>
    intro K h x hx
    have hsplit : (∑ i ∈ Finset.range K, (a :: rest).count i) =
        (∑ i ∈ Finset.range K, rest.count i) + (if a ∈ Finset.range K then 1 else 0) := by
      simp only [List.count_cons, beq_iff_eq]
      rw [Finset.sum_add_distrib]
      simp
    rw [hsplit] at h
    have hle := count_sum_le rest K
    simp only [List.length_cons] at h
    by_cases ha : a < K
    · rcases List.mem_cons.mp hx with rfl | hxr
      · exact ha
      · apply ih K ?_ x hxr
        rw [if_pos (Finset.mem_range.mpr ha)] at h
        omega
    · rw [if_neg (fun hm => ha (Finset.mem_range.mp hm))] at h
      omega

/-- C8: for `n = 2` and any sequence of length 8 with observed counts
`[2, 2, 2, 2]`, the statistic is exactly `0` and the p-value exactly `1`
(given that the chi-square CDF vanishes at `0`). -/
theorem c8_exact_uniformity (cdf : ℚ → ℕ → ℚ) (data : List ℕ)
    (h0 : data.count 0 = 2) (h1 : data.count 1 = 2) (h2 : data.count 2 = 2)
    (h3 : data.count 3 = 2) (hlen : data.length = 8) (hcdf : cdf 0 3 = 0) :
    chi_square_test cdf data 2 = .ok (some 0, some 1) := by
  have hsum : (∑ i ∈ Finset.range (2 ^ 2), data.count i) = data.length := by
    rw [hlen, show (2 : ℕ) ^ 2 = 4 from rfl]
    rw [Finset.sum_range_succ, Finset.sum_range_succ, Finset.sum_range_succ,
      Finset.sum_range_succ]
    simp [h0, h1, h2, h3]
  have hall := all_lt_of_count_sum data (2 ^ 2) hsum
  have hne : data ≠ [] := by
    intro h
    rw [h] at hlen
    simp at hlen
  rw [chi_square_test_eq_spec cdf data 2 hne hall]
  have hstat : chiSquareStatSpec data 2 = 0 := by
    unfold chiSquareStatSpec
    rw [show (2 : ℕ) ^ 2 = 4 from rfl]
    rw [Finset.sum_range_succ, Finset.sum_range_succ, Finset.sum_range_succ,
      Finset.sum_range_succ]
    rw [h0, h1, h2, h3, hlen]
    norm_num
  rw [hstat, show (2 : ℕ) ^ 2 - 1 = 3 from rfl, hcdf]
  norm_num

theorem c8_exact_uniformity_witness :
    chi_square_test (fun _ _ => 0) [0, 0, 1, 1, 2, 2, 3, 3] 2 = .ok (some 0, some 1) :=
  c8_exact_uniformity (fun _ _ => 0) [0, 0, 1, 1, 2, 2, 3, 3]
    (by decide) (by decide) (by decide) (by decide) (by decide) (by decide)

/-! ### Permutation invariance -/

theorem foldl_min_mem : ∀ (xs : List ℕ) (x : ℕ), xs.foldl min x ∈ x :: xs := by
  intro xs
  induction xs with
  | nil => intro x; simp
  | cons y ys ih =>
    intro x
    simp only [List.foldl_cons]
    rcases List.mem_cons.mp (ih (min x y)) with he | hm
    · rw [he]
      rcases min_choice x y with h' | h' <;> rw [h'] <;> simp
    · exact List.mem_cons_of_mem _ (List.mem_cons_of_mem _ hm)

theorem foldl_min_le : ∀ (xs : List ℕ) (x y : ℕ), y ∈ x :: xs → xs.foldl min x ≤ y := by
  intro xs
  induction xs with
  | nil =>
    intro x y hy
    simp at hy
    simp [hy]
  | cons z zs ih =>
    intro x y hy
    simp only [List.foldl_cons]
    rcases List.mem_cons.mp hy with rfl | hy'
    · exact le_trans (ih _ _ (List.mem_cons_self _ _)) (min_le_left _ _)
    · rcases List.mem_cons.mp hy' with rfl | hy''
      · exact le_trans (ih _ _ (List.mem_cons_self _ _)) (min_le_right _ _)
      · exact ih (min x z) y (List.mem_cons_of_mem _ hy'')

theorem foldl_max_mem : ∀ (xs : List ℕ) (x : ℕ), xs.foldl max x ∈ x :: xs := by
  intro xs
  induction xs with
  | nil => intro x; simp
  | cons y ys ih =>
    intro x
    simp only [List.foldl_cons]
    rcases List.mem_cons.mp (ih (max x y)) with he | hm
    · rw [he]
      rcases max_choice x y with h' | h' <;> rw [h'] <;> simp
    · exact List.mem_cons_of_mem _ (List.mem_cons_of_mem _ hm)

theorem foldl_max_ge : ∀ (xs : List ℕ) (x y : ℕ), y ∈ x :: xs → y ≤ xs.foldl max x := by
  intro xs
  induction xs with
  | nil =>
    intro x y hy
    simp at hy
    simp [hy]
  | cons z zs ih =>
    intro x y hy
    simp only [List.foldl_cons]
    rcases List.mem_cons.mp hy with rfl | hy'
    · exact le_trans (le_max_left _ _) (ih _ _ (List.mem_cons_self _ _))
    · rcases List.mem_cons.mp hy' with rfl | hy''
      · exact le_trans (le_max_right _ _) (ih _ _ (List.mem_cons_self _ _))
      · exact ih (max x z) y (List.mem_cons_of_mem _ hy'')

theorem np_min_perm {l₁ l₂ : List ℕ} (h : l₁.Perm l₂) : np_min l₁ = np_min l₂ := by
  cases l₁ with
  | nil =>
    rw [← h.nil_eq]
  | cons x xs =>
    cases l₂ with
    | nil => exact absurd h.eq_nil (by simp)
    | cons y ys =>
      have le1 : xs.foldl min x ≤ ys.foldl min y :=
        foldl_min_le xs x _ (h.mem_iff.mpr (foldl_min_mem ys y))
      have le2 : ys.foldl min y ≤ xs.foldl min x :=
        foldl_min_le ys y _ (h.mem_iff.mp (foldl_min_mem xs x))
      simp only [np_min]
      rw [Nat.le_antisymm le1 le2]

theorem np_max_perm {l₁ l₂ : List ℕ} (h : l₁.Perm l₂) : np_max l₁ = np_max l₂ := by
  cases l₁ with
  | nil =>
    rw [← h.nil_eq]
  | cons x xs =>
    cases l₂ with
    | nil => exact absurd h.eq_nil (by simp)
    | cons y ys =>
      have le1 : xs.foldl max x ≤ ys.foldl max y :=
        foldl_max_ge ys y _ (h.mem_iff.mp (foldl_max_mem xs x))
      have le2 : ys.foldl max y ≤ xs.foldl max x :=
        foldl_max_ge xs x _ (h.mem_iff.mpr (foldl_max_mem ys y))
      simp only [np_max]
      rw [Nat.le_antisymm le1 le2]

theorem np_mean_perm {l₁ l₂ : List ℕ} (h : l₁.Perm l₂) : np_mean l₁ = np_mean l₂ := by
  cases l₁ with
  | nil => rw [← h.nil_eq]
  | cons x xs =>
    cases l₂ with
    | nil => exact absurd h.eq_nil (by simp)
    | cons y ys =>
      rw [np_mean_cons, np_mean_cons, List.Perm.sum_eq (h.map _), h.length_eq]

theorem np_std_cons (sqrt : ℚ → ℚ) (x : ℕ) (xs : List ℕ) :
    np_std sqrt (x :: xs) = some (sqrt (((x :: xs).map (fun a : ℕ => ((a : ℚ) -
      ((x :: xs).map (fun b : ℕ => (b : ℚ))).sum / (x :: xs).length) ^ 2)).sum /
      (x :: xs).length)) := rfl

theorem np_std_perm (sqrt : ℚ → ℚ) {l₁ l₂ : List ℕ} (h : l₁.Perm l₂) :
    np_std sqrt l₁ = np_std sqrt l₂ := by
  cases l₁ with
  | nil => rw [← h.nil_eq]
  | cons x xs =>
    cases l₂ with
    | nil => exact absurd h.eq_nil (by simp)
    | cons y ys =>
      rw [np_std_cons, np_std_cons]
      have hμ : ((x :: xs).map (fun b : ℕ => (b : ℚ))).sum / ((x :: xs).length : ℚ) =
          ((y :: ys).map (fun b : ℕ => (b : ℚ))).sum / ((y :: ys).length : ℚ) := by
        rw [List.Perm.sum_eq (h.map _), h.length_eq]
      rw [hμ, h.length_eq, List.Perm.sum_eq (h.map _)]

theorem foldr_max_perm {l₁ l₂ : List ℕ} (h : l₁.Perm l₂) :
    l₁.foldr max 0 = l₂.foldr max 0 := by
  induction h with
  | nil => rfl
  | cons a _ ih => simp only [List.foldr_cons, ih]
  | swap a b l => simp only [List.foldr_cons]; exact max_left_comm _ _ _
  | trans _ _ ih1 ih2 => exact ih1.trans ih2

theorem np_bincount_perm {l₁ l₂ : List ℕ} (h : l₁.Perm l₂) (K : ℕ) :
    np_bincount l₁ K = np_bincount l₂ K := by
  cases l₁ with
  | nil =>
    have h2 : l₂ = [] := h.symm.eq_nil
    subst h2
    rfl
  | cons x xs =>
    cases l₂ with
    | nil => exact absurd h.eq_nil (by simp)
    | cons y ys =>
      simp only [np_bincount]
      have hmax : max K ((x :: xs).foldr max 0 + 1) = max K ((y :: ys).foldr max 0 + 1) := by
        rw [foldr_max_perm h]
      rw [hmax]
      exact List.map_congr_left (fun i _ => h.count_eq i)

/-- C9: `calculate_statistics` and `chi_square_test` are order-invariant:
permuting a non-empty input sequence changes neither result. -/
theorem c9_order_invariance (sqrt : ℚ → ℚ) (cdf : ℚ → ℕ → ℚ) (n : ℕ)
    (data data' : List ℕ) (hp : data.Perm data') (hne : data ≠ []) :
    calculate_statistics sqrt data n = calculate_statistics sqrt data' n ∧
      chi_square_test cdf data n = chi_square_test cdf data' n := by
  constructor
  · unfold calculate_statistics
    rw [np_min_perm hp, np_max_perm hp, np_mean_perm hp, np_std_perm sqrt hp,
      hp.length_eq, (hp.dedup).length_eq]
  · simp only [chi_square_test]
    rw [np_bincount_perm hp (2 ^ n), hp.length_eq]

theorem c9_order_invariance_witness :
    calculate_statistics (fun q => q) [1, 2] 2 = calculate_statistics (fun q => q) [2, 1] 2 ∧
      chi_square_test (fun _ _ => 0) [1, 2] 2 = chi_square_test (fun _ _ => 0) [2, 1] 2 :=
  c9_order_invariance (fun q => q) (fun _ _ => 0) 2 [1, 2] [2, 1]
    (List.Perm.swap 2 1 []) (by decide)

/-! ### Concrete evaluations -/

example : np_bincount [0, 0, 1, 3] 4 = [2, 1, 0, 1] := by decide
example : np_bincount [5] 4 = [0, 0, 0, 0, 0, 1] := by decide
example : np_bincount [] 4 = [0, 0, 0, 0] := by decide
example : chi_square_test (fun _ _ => 0) [0, 1, 2, 3] 2 = .ok (some 0, some 1) := by
  norm_num [chi_square_test, np_bincount, nan_add, List.range_succ, List.count_cons]
example : (chi_square_test (fun _ _ => 0) [5] 2).isOk = false := by decide
example : chi_square_test (fun _ _ => 0) [] 2 = .ok (none, none) := by
  norm_num [chi_square_test, np_bincount, nan_add, List.range_succ]
example : calculate_statistics (fun q => q) [0, 1] 2 =
    .ok { mean := some (1/2), theoretical_mean := 3/2, std_dev := some (1/4),
          min := 0, max := 1, unique_values := 2, total_samples := 2 } := by
  norm_num [calculate_statistics, np_mean, np_std, np_min, np_max, List.dedup_cons_of_not_mem]
example : invoked_before_failure (field_evals (fun q => q) [] 2) =
    ["mean", "theoretical_mean", "std_dev"] := by
  rfl
example : chiSquareStatSpec [0, 0, 1, 3] 2 = 2 := by
  norm_num [chiSquareStatSpec, Finset.sum_range_succ, List.count_cons]

example : pyIntBase2 ("101") = some 5 := by decide
example : pyIntBase2 ("0b1_01") = some 5 := by decide
example : pyIntBase2 (" -11 ") = some (-3) := by decide
example : pyIntBase2 ("1__0") = none := by decide
example : pyIntBase2 ("1_") = none := by decide
example : pyIntBase2 ("") = none := by decide
example : pyIntBase2 ("2") = none := by decide
example : pyIntBase2 ("0b_1") = some 1 := by decide
example : pyIntBase2 ("_1") = none := by decide
example : pyIntBase2 ("+0B11") = some 3 := by decide
example : pyIntBase2 ("0b") = none := by decide
example : pyIntBase2 ("00") = some 0 := by decide
example : expandCounts [("10", 3), ("1", -2)] = .ok [2, 2, 2] := by decide
example : expandCounts [("111", 1)] = .ok [7] := by decide
example : (expandCounts [("10", 3), ("x", 1)]).isOk = false := by decide
example : expandSpec [("10", 2), ("01", 1)] = [2, 2, 1] := by decide
